import Mathlib

/-!
# Verification of `google_suggestion_crawler.py`

A shallow embedding of the crawler in `src/google_suggestion_crawler.py`
(class `SuggestionWorker`), together with proofs about its behaviour.

The embedding covers:
* the string operations the crawler uses (`str.lower`, the `in` substring
  test, `str.strip`);
* the suggestion lookup `SuggestionWorker.get_suggestions` (lines 69-97),
  with its error handling modelled by an explicit response type;
* the construction of the worker (`__init__`, lines 32-67);
* the concurrent worker loop (`SuggestionWorker.worker`, lines 106-144),
  `run` (lines 173-234) and `cleanup` (lines 146-171), modelled as a
  small-step transition system over a global state, where each step is one
  GIL-atomic access to shared state.  A schedule (list of actions) selects
  which thread moves; `exec` folds a schedule from the starting state.
-/

namespace Crawler

/-! ## Python string primitives -/

/-- ASCII case mapping of Python `str.lower()`: `'A'..'Z'` (65..90) map to
`'a'..'z'` (97..122); every other character is unchanged.  (The crawler only
ever compares suggestion strings, for which the ASCII mapping is the relevant
fragment of `str.lower`.) -/
def pyCharLower (c : Char) : Char :=
  if 65 ≤ c.toNat ∧ c.toNat ≤ 90 then Char.ofNat (c.toNat + 32) else c

/-- Python `s.lower()`, character by character. -/
def pyLower (s : String) : String :=
  ⟨s.data.map pyCharLower⟩

/-- The whitespace characters Python `str.strip()` removes (the ASCII
ones). -/
def pyIsSpace (c : Char) : Bool :=
  c == ' ' || c == '\t' || c == '\n' || c == '\r' || c == '\x0b' || c == '\x0c'

/-- Python `s.strip()`: drop leading and trailing whitespace. -/
def pyStrip (s : String) : String :=
  ⟨((s.data.dropWhile pyIsSpace).reverse.dropWhile pyIsSpace).reverse⟩

/-- `beginsWith needle hay`: `hay` starts with `needle`. -/
def beginsWith : List Char → List Char → Bool
  | [], _ => true
  | _ :: _, [] => false
  | a :: as, b :: bs => a == b && beginsWith as bs

/-- `subStr needle hay`: `needle` occurs contiguously in `hay`. -/
def subStr (needle : List Char) : List Char → Bool
  | [] => needle.isEmpty
  | c :: t => beginsWith needle (c :: t) || subStr needle t

/-- Python `needle in hay` for strings: contiguous substring containment. -/
def pyIn (needle hay : String) : Bool :=
  subStr needle.data hay.data

/-- The empty string is a substring of every string (`"" in s` is `True`
in Python). -/
theorem pyIn_nil (hay : String) : pyIn "" hay = true := by
  show subStr [] hay.data = true
  induction hay.data with
  | nil => rfl
  | cons c t ih => simp [subStr, beginsWith]

theorem pyCharLower_idem (c : Char) : pyCharLower (pyCharLower c) = pyCharLower c := by
  by_cases h : 65 ≤ c.toNat ∧ c.toNat ≤ 90
  · have hc : pyCharLower c = Char.ofNat (c.toNat + 32) := by
      simp [pyCharLower, h]
    rw [hc]
    obtain ⟨h1, h2⟩ := h
    generalize c.toNat = n at h1 h2
    interval_cases n <;> decide
  · simp [pyCharLower, h]

/-- Python's `lower` is idempotent (on the ASCII fragment modelled here):
the crawler stores `main_keyword.lower()` and lowering again changes
nothing. -/
theorem pyLower_idem (s : String) : pyLower (pyLower s) = pyLower s := by
  show (⟨(s.data.map pyCharLower).map pyCharLower⟩ : String) = ⟨s.data.map pyCharLower⟩
  rw [List.map_map]
  congr 1
  exact List.map_congr_left fun c _ => pyCharLower_idem c

/-! ## The suggestion lookup (`get_suggestions`, lines 69-97)

The HTTP interaction is abstracted into a `Response`: either the request
raised `requests.RequestException` (network error, non-success status via
`raise_for_status`), or `ET.fromstring` raised `ET.ParseError`, or parsing
succeeded and `root.findall('.//suggestion')` produced a list of elements
whose `data` attribute (`suggestion.get('data')`, line 87) is an
`Option String` — `none` when the attribute is absent. -/

inductive Response where
  | transportError
  | parseError
  | parsed (datas : List (Option String))
deriving DecidableEq

/-- Result of a Python call: a returned value, or an uncaught exception
escaping the function (named by its class). -/
inductive PyResult (α : Type) where
  | ok (a : α)
  | raised (exn : String)
deriving DecidableEq

/-- Line 90: `[s for s in suggestions if self.main_keyword in s.lower()]`. -/
def filterSuggestions (mainKeyword : String) (suggestions : List String) : List String :=
  suggestions.filter fun s => pyIn mainKeyword (pyLower s)

/-- `SuggestionWorker.get_suggestions` (lines 69-97).  `mainKeyword` is the
(already lowered) `self.main_keyword`.  `requests.RequestException` and
`ET.ParseError` are caught and yield `[]` (lines 92-97, after printing).
If some `<suggestion>` element has no `data` attribute, line 87 puts `None`
in the list and line 90 evaluates `None.lower()`, raising `AttributeError`,
which none of the `except` clauses catches. -/
def get_suggestions (mainKeyword : String) : Response → PyResult (List String)
  | .transportError => .ok []
  | .parseError => .ok []
  | .parsed datas =>
      if datas.all Option.isSome then
        .ok (filterSuggestions mainKeyword (datas.filterMap id))
      else
        .raised "AttributeError"

theorem get_suggestions_ok_filtered {mainKeyword : String} {r : Response}
    {l : List String} (h : get_suggestions mainKeyword r = .ok l) :
    ∀ s ∈ l, pyIn mainKeyword (pyLower s) = true := by
  intro s hs
  cases r with
  | transportError => injection h with h; subst h; simp at hs
  | parseError => injection h with h; subst h; simp at hs
  | parsed datas =>
      rw [get_suggestions] at h
      split at h
      · cases h
        exact (List.mem_filter.mp hs).2
      · cases h

/-! ## Construction (`__init__`, lines 32-67) and the entry point (`main`,
lines 237-246)

Line 43 stores `main_keyword.lower()`; line 53 builds the output file name
from the *original* `main_keyword` argument (and a timestamp, which we take
as a parameter since it is read from the clock). -/

structure Config where
  main_keyword : String
  output_file : String
  num_workers : Nat
  max_depth : Nat
deriving DecidableEq

/-- `SuggestionWorker.__init__` (the fields relevant to the claims).
`timestamp` stands for `datetime.now().strftime(...)` (line 52). -/
def mkWorker (main_keyword : String) (output_dir : String) (timestamp : String)
    (num_workers : Nat) (max_depth : Nat) : Config :=
  { main_keyword := pyLower main_keyword
    output_file := output_dir ++ "/suggestions_" ++ main_keyword ++ "_" ++ timestamp ++ ".txt"
    num_workers := num_workers
    max_depth := max_depth }

/-- `main()` (lines 237-246): reads a line, strips surrounding whitespace
(`.strip()`, line 238) and unconditionally constructs the worker with
`num_workers=2`, `max_depth=5` and the default `output_dir="results"`.
There is no validation or rejection of the keyword. -/
def mainEntry (userInput : String) (timestamp : String) : Config :=
  mkWorker (pyStrip userInput) "results" timestamp 2 5

/-! ## The worker loop as a small-step transition system

`SuggestionWorker.worker` (lines 106-144) runs in `num_workers` threads
sharing `self.queue`, `self.processed_queries`, `self.results`, the output
file and `self.lock`.  Each shared-state access is one GIL-atomic step:

* `queue.get` (line 110) — the dequeue;
* the membership test `query in self.processed_queries` (line 113);
* `self.processed_queries.add(query)` (line 125);
* `self.get_suggestions(query)` (line 126) — the external lookup;
* the `with self.lock:` block (lines 129-134) — one atomic step, since
  every mutation of `results`, the output file and the enqueueing of child
  tasks happens under the lock.  (The individual `queue.put` calls inside
  the block interleave with other threads' `queue.get`, but a dequeue takes
  the head and a put appends at the tail, so the resulting queue contents
  are the same as for one atomic block.)

Ghost fields `childLog` (every `queue.put((suggestion, depth + 1))`,
line 134) and `fetchLog` (every call of `get_suggestions` from the loop,
line 126) record the events the claims speak about. -/

/-- A queue entry: `(None, 0)` sentinels (lines 169, 215) or a
`(query, depth)` task. -/
inductive Task where
  | sentinel
  | item (query : String) (depth : Nat)
deriving DecidableEq

/-- The control state of one worker thread inside its loop body.

* `idle` — at the top of the loop, before `queue.get` (line 110);
* `gotTask t` — between `queue.get` and the line-113 membership test;
* `checked q d` — passed the line-113 and line-120 checks, before the
  `processed_queries.add` of line 125;
* `claimed q d` — after line 125, before the lookup of line 126;
* `fetched q d suggs` — lookup returned `suggs`, before the locked block;
* `stopped` — left the loop (`break`). -/
inductive WState where
  | idle
  | gotTask (t : Task)
  | checked (query : String) (depth : Nat)
  | claimed (query : String) (depth : Nat)
  | fetched (query : String) (depth : Nat) (suggs : List String)
  | stopped
deriving DecidableEq

/-- The shared state of a run plus each worker's control state.
`results`, `processed` model the Python sets as insertion-ordered lists;
`output` is the lines appended to the output file (after the header);
`childLog` and `fetchLog` are ghost event logs. -/
structure GState where
  queue : List Task
  processed : List String
  results : List String
  output : List String
  childLog : List (String × Nat)
  fetchLog : List (String × Nat)
  workers : List WState
deriving DecidableEq

/-- Fixed run parameters: `kw` is `self.main_keyword` (already lowered),
`maxDepth` is `self.max_depth`, `env` is the external world — the response
the provider gives for each query. -/
structure Params where
  kw : String
  maxDepth : Nat
  env : String → Response
  numWorkers : Nat

/-- `mkParams K ...` packages the parameters the way `__init__` does:
the stored keyword is `K.lower()` (line 43). -/
def mkParams (K : String) (maxDepth : Nat) (env : String → Response)
    (numWorkers : Nat) : Params :=
  { kw := pyLower K, maxDepth := maxDepth, env := env, numWorkers := numWorkers }

/-- One iteration of the `for suggestion in suggestions` loop under the lock
(lines 130-134): if the suggestion is new, add it to `results`, append it to
the output file (`save_suggestion`), and enqueue it as a depth+1 task. -/
def recordOne (depth : Nat) (st : GState) (s : String) : GState :=
  if s ∈ st.results then st
  else
    { st with
      results := st.results ++ [s]
      output := st.output ++ [s]
      queue := st.queue ++ [Task.item s (depth + 1)]
      childLog := st.childLog ++ [(s, depth + 1)] }

/-- The whole `with self.lock:` block (lines 129-134). -/
def recordAll (depth : Nat) (suggs : List String) (st : GState) : GState :=
  suggs.foldl (recordOne depth) st

/-- The next GIL-atomic move of a worker currently in control state `w`
(the worker's index is `i`).  Mirrors lines 108-144. -/
def workOn (P : Params) (st : GState) (i : Nat) : WState → GState
  | .stopped => st
  | .idle =>
      match st.queue with
      | [] => st
      | t :: rest =>
          { st with queue := rest, workers := st.workers.set i (.gotTask t) }
  | .gotTask .sentinel =>
      { st with workers := st.workers.set i .stopped }
  | .gotTask (.item q d) =>
      if q ∈ st.processed then { st with workers := st.workers.set i .idle }
      else if P.maxDepth ≤ d then { st with workers := st.workers.set i .idle }
      else { st with workers := st.workers.set i (.checked q d) }
  | .checked q d =>
      { st with
        processed := if q ∈ st.processed then st.processed else st.processed ++ [q]
        workers := st.workers.set i (.claimed q d) }
  | .claimed q d =>
      match get_suggestions P.kw (P.env q) with
      | .ok suggs =>
          { st with fetchLog := st.fetchLog ++ [(q, d)],
                    workers := st.workers.set i (.fetched q d suggs) }
      | .raised _ =>
          { st with fetchLog := st.fetchLog ++ [(q, d)],
                    workers := st.workers.set i .idle }
  | .fetched _ d suggs =>
      let st2 := recordAll d suggs st
      { st2 with workers := st2.workers.set i .idle }

/-- A scheduling action: one worker moves; a worker breaks out of its loop
at the top (`shutdown_flag` set by `cleanup`, line 108, or a `queue.get`
timeout with an empty queue, lines 139-141); the coordinator drains one
task (`cleanup`, lines 159-164) or pushes a sentinel (lines 167-171,
214-215). -/
inductive Act where
  | work (i : Nat)
  | stopWorker (i : Nat)
  | drain
  | pushSentinel
deriving DecidableEq

def applyAct (P : Params) (st : GState) : Act → GState
  | .work i =>
      match st.workers[i]? with
      | some w => workOn P st i w
      | none => st
  | .stopWorker i =>
      match st.workers[i]? with
      | some .idle => { st with workers := st.workers.set i .stopped }
      | _ => st
  | .drain =>
      match st.queue with
      | [] => st
      | _ :: rest => { st with queue := rest }
  | .pushSentinel =>
      { st with queue := st.queue ++ [.sentinel] }

/-- The state when the threads start: `run` has queued the seed task
`(self.main_keyword, 0)` (line 187); the sets are empty, the output file
holds only the header. -/
def initState (P : Params) : GState :=
  { queue := [Task.item P.kw 0]
    processed := []
    results := []
    output := []
    childLog := []
    fetchLog := []
    workers := List.replicate P.numWorkers WState.idle }

/-- Run a schedule from the starting state. -/
def exec (P : Params) (acts : List Act) : GState :=
  acts.foldl (applyAct P) (initState P)

/-! ### Event counting -/

/-- Does a queue entry carry query `q`? -/
def taskHasQ (q : String) : Task → Bool
  | .item q2 _ => q2 == q
  | .sentinel => false

/-- Worker holds a dequeued-but-unchecked task with query `q`. -/
def wGotQ (q : String) : WState → Bool
  | .gotTask t => taskHasQ q t
  | _ => false

/-- Worker is between the line-113 check and the line-126 lookup for `q`. -/
def wCCQ (q : String) : WState → Bool
  | .checked q2 _ => q2 == q
  | .claimed q2 _ => q2 == q
  | _ => false

/-- Worker may still reach a lookup of `q` (holds its task or passed the
checks but has not called the lookup yet). -/
def wPreQ (q : String) (w : WState) : Bool := wGotQ q w || wCCQ q w

def queueCnt (q : String) (st : GState) : Nat := st.queue.countP (taskHasQ q)
def preCnt (q : String) (st : GState) : Nat := st.workers.countP (wPreQ q)
def ccCnt (q : String) (st : GState) : Nat := st.workers.countP (wCCQ q)
def fetchCnt (q : String) (st : GState) : Nat := st.fetchLog.countP (fun p => p.1 == q)
def childCnt (q : String) (st : GState) : Nat := st.childLog.countP (fun p => p.1 == q)

theorem countP_set_count {α : Type} (p : α → Bool) :
    ∀ (l : List α) (i : Nat) (a b : α), l[i]? = some b →
      List.countP p (l.set i a) + (if p b then 1 else 0)
        = List.countP p l + (if p a then 1 else 0)
  | [], i, a, b, h => by simp at h
  | x :: xs, 0, a, b, h => by
      simp only [List.getElem?_cons_zero, Option.some.injEq] at h
      subst h
      simp only [List.set_cons_zero, List.countP_cons]
      omega
  | x :: xs, i + 1, a, b, h => by
      simp only [List.getElem?_cons_succ] at h
      have ih := countP_set_count p xs i a b h
      simp only [List.set_cons_succ, List.countP_cons]
      omega

/-! ### Step equations -/

theorem applyAct_work {P : Params} {st : GState} {i : Nat} {w : WState}
    (h : st.workers[i]? = some w) : applyAct P st (.work i) = workOn P st i w := by
  simp [applyAct, h]

theorem workOn_stopped {P : Params} {st : GState} {i : Nat} :
    workOn P st i .stopped = st := rfl

theorem workOn_idle_nil {P : Params} {st : GState} {i : Nat} (h : st.queue = []) :
    workOn P st i .idle = st := by
  simp [workOn, h]

theorem workOn_idle_cons {P : Params} {st : GState} {i : Nat} {t : Task}
    {rest : List Task} (h : st.queue = t :: rest) :
    workOn P st i .idle
      = { st with queue := rest, workers := st.workers.set i (.gotTask t) } := by
  simp [workOn, h]

theorem workOn_sentinel {P : Params} {st : GState} {i : Nat} :
    workOn P st i (.gotTask .sentinel)
      = { st with workers := st.workers.set i .stopped } := rfl

theorem workOn_item_drop {P : Params} {st : GState} {i : Nat} {q : String} {d : Nat}
    (h : q ∈ st.processed ∨ P.maxDepth ≤ d) :
    workOn P st i (.gotTask (.item q d))
      = { st with workers := st.workers.set i .idle } := by
  unfold workOn
  by_cases h1 : q ∈ st.processed
  · simp [h1]
  · simp [h1, h.resolve_left h1]

theorem workOn_item_pass {P : Params} {st : GState} {i : Nat} {q : String} {d : Nat}
    (h1 : q ∉ st.processed) (h2 : d < P.maxDepth) :
    workOn P st i (.gotTask (.item q d))
      = { st with workers := st.workers.set i (.checked q d) } := by
  unfold workOn
  simp [h1, Nat.not_le.mpr h2]

theorem workOn_checked {P : Params} {st : GState} {i : Nat} {q : String} {d : Nat} :
    workOn P st i (.checked q d)
      = { st with
            processed := if q ∈ st.processed then st.processed else st.processed ++ [q]
            workers := st.workers.set i (.claimed q d) } := rfl

theorem workOn_claimed_ok {P : Params} {st : GState} {i : Nat} {q : String} {d : Nat}
    {suggs : List String} (h : get_suggestions P.kw (P.env q) = .ok suggs) :
    workOn P st i (.claimed q d)
      = { st with fetchLog := st.fetchLog ++ [(q, d)],
                  workers := st.workers.set i (.fetched q d suggs) } := by
  simp [workOn, h]

theorem workOn_claimed_raised {P : Params} {st : GState} {i : Nat} {q : String} {d : Nat}
    {e : String} (h : get_suggestions P.kw (P.env q) = .raised e) :
    workOn P st i (.claimed q d)
      = { st with fetchLog := st.fetchLog ++ [(q, d)],
                  workers := st.workers.set i .idle } := by
  simp [workOn, h]

theorem workOn_fetched {P : Params} {st : GState} {i : Nat} {q : String} {d : Nat}
    {suggs : List String} :
    workOn P st i (.fetched q d suggs)
      = { recordAll d suggs st with
            workers := (recordAll d suggs st).workers.set i .idle } := rfl

/-! ### What the locked block does (`recordAll`) -/

/-- A candidate that is already in the seen-results set changes nothing:
it is neither persisted, nor re-enqueued, nor re-added (lines 131-134). -/
theorem recordOne_seen {depth : Nat} {st : GState} {s : String}
    (h : s ∈ st.results) : recordOne depth st s = st := by
  simp [recordOne, h]

/-- Full characterization of the locked block: it appends a list `news` of
new `(string, depth+1)` entries, the same list, in the same order, to the
queue, the result set, the output file and the child log; the new strings
are pairwise distinct, are drawn from the candidates, and none of them was
already in the result set; nothing else changes. -/
theorem recordAll_spec (depth : Nat) :
    ∀ (suggs : List String) (st : GState), ∃ news : List (String × Nat),
      (recordAll depth suggs st).queue
          = st.queue ++ news.map (fun p => Task.item p.1 p.2) ∧
      (recordAll depth suggs st).childLog = st.childLog ++ news ∧
      (recordAll depth suggs st).output = st.output ++ news.map Prod.fst ∧
      (recordAll depth suggs st).results = st.results ++ news.map Prod.fst ∧
      (recordAll depth suggs st).processed = st.processed ∧
      (recordAll depth suggs st).fetchLog = st.fetchLog ∧
      (recordAll depth suggs st).workers = st.workers ∧
      (∀ p ∈ news, p.2 = depth + 1 ∧ p.1 ∈ suggs ∧ p.1 ∉ st.results) ∧
      (news.map Prod.fst).Nodup
  | [], st => ⟨[], by simp [recordAll]⟩
  | s :: rest, st => by
      have hstep : recordAll depth (s :: rest) st
          = recordAll depth rest (recordOne depth st s) := rfl
      by_cases hs : s ∈ st.results
      · rw [recordOne_seen hs] at hstep
        obtain ⟨news, h1, h2, h3, h4, h5, h6, h7, h8, h9⟩ := recordAll_spec depth rest st
        rw [hstep]
        exact ⟨news, h1, h2, h3, h4, h5, h6, h7,
          fun p hp => ⟨(h8 p hp).1, List.mem_cons_of_mem s (h8 p hp).2.1,
            (h8 p hp).2.2⟩, h9⟩
      · have hone : recordOne depth st s
            = { st with
                results := st.results ++ [s]
                output := st.output ++ [s]
                queue := st.queue ++ [Task.item s (depth + 1)]
                childLog := st.childLog ++ [(s, depth + 1)] } := by
          simp [recordOne, hs]
        obtain ⟨news, h1, h2, h3, h4, h5, h6, h7, h8, h9⟩ :=
          recordAll_spec depth rest (recordOne depth st s)
        refine ⟨(s, depth + 1) :: news, ?_, ?_, ?_, ?_, ?_, ?_, ?_, ?_, ?_⟩
        · rw [hstep, h1, hone]; simp
        · rw [hstep, h2, hone]; simp
        · rw [hstep, h3, hone]; simp
        · rw [hstep, h4, hone]; simp
        · rw [hstep, h5, hone]
        · rw [hstep, h6, hone]
        · rw [hstep, h7, hone]
        · intro p hp0
          rcases List.mem_cons.mp hp0 with rfl | hp
          · exact ⟨rfl, List.mem_cons_self s rest, hs⟩
          · obtain ⟨hd, hm, hr⟩ := h8 p hp
            rw [hone] at hr
            simp only [List.mem_append, List.mem_singleton] at hr
            push_neg at hr
            exact ⟨hd, List.mem_cons_of_mem s hm, hr.1⟩
        · simp only [List.map_cons, List.nodup_cons]
          constructor
          · intro hmem
            obtain ⟨p, hp, hps⟩ := List.mem_map.mp hmem
            obtain ⟨_, _, hr⟩ := h8 p hp
            rw [hone] at hr
            simp only [List.mem_append, List.mem_singleton] at hr
            push_neg at hr
            exact hr.2 hps
          · exact h9

/-! ### The run invariant -/

/-- The `(query, depth)` a worker is currently holding, in any state from
dequeue to the locked block. -/
def wTask : WState → Option (String × Nat)
  | .gotTask (.item q d) => some (q, d)
  | .checked q d => some (q, d)
  | .claimed q d => some (q, d)
  | .fetched q d _ => some (q, d)
  | _ => none

/-- The `(query, depth)` of a worker that has passed both loop checks. -/
def wActive : WState → Option (String × Nat)
  | .checked q d => some (q, d)
  | .claimed q d => some (q, d)
  | .fetched q d _ => some (q, d)
  | _ => none

/-- The `(query, depth)` of a worker that has executed line 125
(`processed_queries.add`). -/
def wClaimed : WState → Option (String × Nat)
  | .claimed q d => some (q, d)
  | .fetched q d _ => some (q, d)
  | _ => none

@[simp] theorem wPreQ_idle {q : String} : wPreQ q .idle = false := rfl
@[simp] theorem wPreQ_stopped {q : String} : wPreQ q .stopped = false := rfl
@[simp] theorem wPreQ_got_sent {q : String} : wPreQ q (.gotTask .sentinel) = false := rfl
@[simp] theorem wPreQ_got_item {q q2 : String} {d : Nat} :
    wPreQ q (.gotTask (.item q2 d)) = (q2 == q) := by
  simp [wPreQ, wGotQ, wCCQ, taskHasQ]
@[simp] theorem wPreQ_checked {q q2 : String} {d : Nat} :
    wPreQ q (.checked q2 d) = (q2 == q) := by
  simp [wPreQ, wGotQ, wCCQ]
@[simp] theorem wPreQ_claimed {q q2 : String} {d : Nat} :
    wPreQ q (.claimed q2 d) = (q2 == q) := by
  simp [wPreQ, wGotQ, wCCQ]
@[simp] theorem wPreQ_fetched {q q2 : String} {d : Nat} {l : List String} :
    wPreQ q (.fetched q2 d l) = false := rfl

@[simp] theorem wCCQ_idle {q : String} : wCCQ q .idle = false := rfl
@[simp] theorem wCCQ_stopped {q : String} : wCCQ q .stopped = false := rfl
@[simp] theorem wCCQ_got {q : String} {t : Task} : wCCQ q (.gotTask t) = false := rfl
@[simp] theorem wCCQ_checked {q q2 : String} {d : Nat} :
    wCCQ q (.checked q2 d) = (q2 == q) := rfl
@[simp] theorem wCCQ_claimed {q q2 : String} {d : Nat} :
    wCCQ q (.claimed q2 d) = (q2 == q) := rfl
@[simp] theorem wCCQ_fetched {q q2 : String} {d : Nat} {l : List String} :
    wCCQ q (.fetched q2 d l) = false := rfl

@[simp] theorem taskHasQ_sent {q : String} : taskHasQ q .sentinel = false := rfl
@[simp] theorem taskHasQ_item {q q2 : String} {d : Nat} :
    taskHasQ q (.item q2 d) = (q2 == q) := rfl

/-- The inductive invariant of the crawler, holding in every reachable
state.  The fields are:

* `out_res`, `child_res`: the output file (after the header) and the list
  of enqueued child queries are exactly the result set, in insertion
  order — persistence, result registration and re-enqueueing happen
  together in the locked block;
* `res_nodup`: the result set never holds duplicates;
* `child_depth`: every child task has depth ≥ 1;
* `queue_src`: every queued task is a sentinel, the seed task, or a logged
  child;
* `worker_src`, `claimed_mem`, `active_depth`: what a worker can be
  holding, and that a worker past line 125 has its query registered, and a
  worker past line 120 has depth < max_depth (and only the seed task can
  carry the seed keyword past the checks);
* `child_kw`: as soon as any child was ever enqueued, the seed keyword is
  registered in `processed_queries` (children only arise from a lookup,
  and the first lookup is necessarily the seed's, after its line 125);
* `fetched_filtered`, `out_filtered`: lookup results, hence all persisted
  lines, contain `main_keyword` (lowercased) as a substring of their
  lowercasing;
* `fetch_depth`: every lookup was made at depth < max_depth;
* `fetch_bound`, `kw_bound`: the counting argument giving
  at-most-one-lookup per query. -/
structure Inv (P : Params) (st : GState) : Prop where
  out_res : st.output = st.results
  child_res : st.childLog.map Prod.fst = st.results
  res_nodup : st.results.Nodup
  child_depth : ∀ p ∈ st.childLog, 1 ≤ p.2
  queue_src : ∀ t ∈ st.queue,
    t = Task.sentinel ∨ t = Task.item P.kw 0
      ∨ ∃ q d, t = Task.item q d ∧ (q, d) ∈ st.childLog
  worker_src : ∀ w ∈ st.workers, ∀ q d, wTask w = some (q, d) →
    (q = P.kw ∧ d = 0) ∨ (q, d) ∈ st.childLog
  claimed_mem : ∀ w ∈ st.workers, ∀ q d, wClaimed w = some (q, d) → q ∈ st.processed
  active_depth : ∀ w ∈ st.workers, ∀ q d, wActive w = some (q, d) →
    d < P.maxDepth ∧ (q = P.kw → d = 0)
  child_kw : st.childLog ≠ [] → P.kw ∈ st.processed
  fetched_filtered : ∀ w ∈ st.workers, ∀ q d suggs, w = WState.fetched q d suggs →
    ∀ s ∈ suggs, pyIn P.kw (pyLower s) = true
  out_filtered : ∀ s ∈ st.output, pyIn P.kw (pyLower s) = true
  fetch_depth : ∀ p ∈ st.fetchLog, p.2 < P.maxDepth
  fetch_bound : ∀ q, q ≠ P.kw →
    fetchCnt q st + queueCnt q st + preCnt q st ≤ childCnt q st
  kw_bound : (if P.kw ∈ st.processed
      then fetchCnt P.kw st + ccCnt P.kw st
      else fetchCnt P.kw st + queueCnt P.kw st + preCnt P.kw st) ≤ 1

theorem mem_set_cases {l : List WState} {i : Nat} {w w2 : WState}
    (h : w2 ∈ l.set i w) : w2 = w ∨ w2 ∈ l :=
  (List.mem_or_eq_of_mem_set h).symm

theorem inv_init (P : Params) : Inv P (initState P) := by
  have hw : ∀ w ∈ (initState P).workers, w = WState.idle := by
    intro w hw
    exact List.eq_of_mem_replicate hw
  refine ⟨rfl, rfl, List.nodup_nil, ?_, ?_, ?_, ?_, ?_, ?_, ?_, ?_, ?_, ?_, ?_⟩
  · intro p hp; simp [initState] at hp
  · intro t ht
    simp only [initState, List.mem_singleton] at ht
    exact Or.inr (Or.inl ht)
  · intro w hww q d hq; rw [hw w hww] at hq; exact absurd hq (by simp [wTask])
  · intro w hww q d hq; rw [hw w hww] at hq; exact absurd hq (by simp [wClaimed])
  · intro w hww q d hq; rw [hw w hww] at hq; exact absurd hq (by simp [wActive])
  · intro h; exact absurd rfl h
  · intro w hww q d suggs hq; rw [hw w hww] at hq; exact absurd hq (by simp)
  · intro s hs; simp [initState] at hs
  · intro p hp; simp [initState] at hp
  · intro q hq
    have hqc : queueCnt q (initState P) = 0 := by
      have hne : (P.kw == q) = false := beq_eq_false_iff_ne.mpr fun h => hq h.symm
      simp [queueCnt, initState, List.countP_cons, hne]
    have hpc : preCnt q (initState P) = 0 := by
      simp only [preCnt]
      rw [List.countP_eq_zero]
      intro w hww; rw [hw w hww]; simp
    have hfc : fetchCnt q (initState P) = 0 := by simp [fetchCnt, initState]
    have hcc : childCnt q (initState P) = 0 := by simp [childCnt, initState]
    omega
  · have hmem : P.kw ∉ (initState P).processed := by simp [initState]
    rw [if_neg hmem]
    have hqc : queueCnt P.kw (initState P) = 1 := by
      simp [queueCnt, initState, List.countP_cons]
    have hpc : preCnt P.kw (initState P) = 0 := by
      simp only [preCnt]
      rw [List.countP_eq_zero]
      intro w hww; rw [hw w hww]; simp
    have hfc : fetchCnt P.kw (initState P) = 0 := by simp [fetchCnt, initState]
    omega

@[simp] theorem wPreQ_got {q : String} {t : Task} :
    wPreQ q (.gotTask t) = taskHasQ q t := by
  simp [wPreQ, wGotQ, wCCQ]

/-- Dequeue (line 110): `queue.get` hands the head task to worker `i`. -/
theorem inv_dequeue {P : Params} {st : GState} {i : Nat} {t : Task} {rest : List Task}
    (inv : Inv P st) (hq : st.queue = t :: rest) (hi : st.workers[i]? = some .idle) :
    Inv P { st with queue := rest, workers := st.workers.set i (.gotTask t) } := by
  have hmemt : t ∈ st.queue := by rw [hq]; exact List.mem_cons_self t rest
  refine ⟨inv.out_res, inv.child_res, inv.res_nodup, inv.child_depth, ?_, ?_, ?_, ?_,
    inv.child_kw, ?_, inv.out_filtered, inv.fetch_depth, ?_, ?_⟩
  · intro t2 ht2
    exact inv.queue_src t2 (by rw [hq]; exact List.mem_cons_of_mem t ht2)
  · intro w hw q d hqd
    rcases mem_set_cases hw with rfl | hw
    · cases t with
      | sentinel => exact absurd hqd (by simp [wTask])
      | item q2 d2 =>
          simp only [wTask, Option.some.injEq, Prod.mk.injEq] at hqd
          obtain ⟨rfl, rfl⟩ := hqd
          rcases inv.queue_src _ hmemt with h | h | ⟨q3, d3, heq, hmem⟩
          · exact absurd h (by simp)
          · cases h; exact Or.inl ⟨rfl, rfl⟩
          · cases heq; exact Or.inr hmem
    · exact inv.worker_src w hw q d hqd
  · intro w hw q d hqd
    rcases mem_set_cases hw with rfl | hw
    · exact absurd hqd (by cases t <;> simp [wClaimed])
    · exact inv.claimed_mem w hw q d hqd
  · intro w hw q d hqd
    rcases mem_set_cases hw with rfl | hw
    · exact absurd hqd (by cases t <;> simp [wActive])
    · exact inv.active_depth w hw q d hqd
  · intro w hw q d suggs heq
    rcases mem_set_cases hw with rfl | hw
    · simp at heq
    · exact inv.fetched_filtered w hw q d suggs heq
  · intro q hqne
    have hcc := countP_set_count (wPreQ q) st.workers i (.gotTask t) .idle hi
    have hqcnt : queueCnt q st
        = List.countP (taskHasQ q) rest + (if taskHasQ q t then 1 else 0) := by
      rw [queueCnt, hq, List.countP_cons]
    have hb := inv.fetch_bound q hqne
    simp only [queueCnt, preCnt, fetchCnt, childCnt, wPreQ_idle, wPreQ_got,
      if_false, Bool.false_eq_true] at *
    omega
  · have hcc := countP_set_count (wPreQ P.kw) st.workers i (.gotTask t) .idle hi
    have hcc2 := countP_set_count (wCCQ P.kw) st.workers i (.gotTask t) .idle hi
    have hqcnt : queueCnt P.kw st
        = List.countP (taskHasQ P.kw) rest + (if taskHasQ P.kw t then 1 else 0) := by
      rw [queueCnt, hq, List.countP_cons]
    have hb := inv.kw_bound
    by_cases hm : P.kw ∈ st.processed
    · rw [if_pos hm] at hb ⊢
      simp only [ccCnt, fetchCnt, wCCQ_idle, wCCQ_got, if_false,
        Bool.false_eq_true] at *
      omega
    · rw [if_neg hm] at hb ⊢
      simp only [queueCnt, preCnt, fetchCnt, wPreQ_idle, wPreQ_got, if_false,
        Bool.false_eq_true] at *
      omega

/-- A worker that dequeued a sentinel `(None, 0)` stops (lines 113-116):
`task_done` and `break`, touching nothing else. -/
theorem inv_sentinel {P : Params} {st : GState} {i : Nat}
    (inv : Inv P st) (hi : st.workers[i]? = some (.gotTask .sentinel)) :
    Inv P { st with workers := st.workers.set i .stopped } := by
  refine ⟨inv.out_res, inv.child_res, inv.res_nodup, inv.child_depth, inv.queue_src,
    ?_, ?_, ?_, inv.child_kw, ?_, inv.out_filtered, inv.fetch_depth, ?_, ?_⟩
  · intro w hw q d hqd
    rcases mem_set_cases hw with rfl | hw
    · exact absurd hqd (by simp [wTask])
    · exact inv.worker_src w hw q d hqd
  · intro w hw q d hqd
    rcases mem_set_cases hw with rfl | hw
    · exact absurd hqd (by simp [wClaimed])
    · exact inv.claimed_mem w hw q d hqd
  · intro w hw q d hqd
    rcases mem_set_cases hw with rfl | hw
    · exact absurd hqd (by simp [wActive])
    · exact inv.active_depth w hw q d hqd
  · intro w hw q d suggs heq
    rcases mem_set_cases hw with rfl | hw
    · simp at heq
    · exact inv.fetched_filtered w hw q d suggs heq
  · intro q hqne
    have hcc := countP_set_count (wPreQ q) st.workers i .stopped (.gotTask .sentinel) hi
    have hb := inv.fetch_bound q hqne
    simp only [queueCnt, preCnt, fetchCnt, childCnt, wPreQ_stopped, wPreQ_got,
      taskHasQ_sent, if_false, Bool.false_eq_true] at *
    omega
  · have hcc := countP_set_count (wPreQ P.kw) st.workers i .stopped (.gotTask .sentinel) hi
    have hcc2 := countP_set_count (wCCQ P.kw) st.workers i .stopped (.gotTask .sentinel) hi
    have hb := inv.kw_bound
    by_cases hm : P.kw ∈ st.processed
    · rw [if_pos hm] at hb ⊢
      simp only [ccCnt, fetchCnt, wCCQ_stopped, wCCQ_got, if_false,
        Bool.false_eq_true] at *
      omega
    · rw [if_neg hm] at hb ⊢
      simp only [queueCnt, preCnt, fetchCnt, wPreQ_stopped, wPreQ_got,
        taskHasQ_sent, if_false, Bool.false_eq_true] at *
      omega

/-- A worker observing the shutdown flag at the loop head (line 108), or a
`queue.get` timeout (lines 139-141), leaves the loop. -/
theorem inv_stop {P : Params} {st : GState} {i : Nat}
    (inv : Inv P st) (hi : st.workers[i]? = some .idle) :
    Inv P { st with workers := st.workers.set i .stopped } := by
  refine ⟨inv.out_res, inv.child_res, inv.res_nodup, inv.child_depth, inv.queue_src,
    ?_, ?_, ?_, inv.child_kw, ?_, inv.out_filtered, inv.fetch_depth, ?_, ?_⟩
  · intro w hw q d hqd
    rcases mem_set_cases hw with rfl | hw
    · exact absurd hqd (by simp [wTask])
    · exact inv.worker_src w hw q d hqd
  · intro w hw q d hqd
    rcases mem_set_cases hw with rfl | hw
    · exact absurd hqd (by simp [wClaimed])
    · exact inv.claimed_mem w hw q d hqd
  · intro w hw q d hqd
    rcases mem_set_cases hw with rfl | hw
    · exact absurd hqd (by simp [wActive])
    · exact inv.active_depth w hw q d hqd
  · intro w hw q d suggs heq
    rcases mem_set_cases hw with rfl | hw
    · simp at heq
    · exact inv.fetched_filtered w hw q d suggs heq
  · intro q hqne
    have hcc := countP_set_count (wPreQ q) st.workers i .stopped .idle hi
    have hb := inv.fetch_bound q hqne
    simp only [queueCnt, preCnt, fetchCnt, childCnt, wPreQ_stopped, wPreQ_idle,
      if_false, Bool.false_eq_true] at *
    omega
  · have hcc := countP_set_count (wPreQ P.kw) st.workers i .stopped .idle hi
    have hcc2 := countP_set_count (wCCQ P.kw) st.workers i .stopped .idle hi
    have hb := inv.kw_bound
    by_cases hm : P.kw ∈ st.processed
    · rw [if_pos hm] at hb ⊢
      simp only [ccCnt, fetchCnt, wCCQ_stopped, wCCQ_idle, if_false,
        Bool.false_eq_true] at *
      omega
    · rw [if_neg hm] at hb ⊢
      simp only [queueCnt, preCnt, fetchCnt, wPreQ_stopped, wPreQ_idle, if_false,
        Bool.false_eq_true] at *
      omega

/-- The coordinator discards one queued task during `cleanup`
(lines 159-164). -/
theorem inv_drain {P : Params} {st : GState} {t : Task} {rest : List Task}
    (inv : Inv P st) (hq : st.queue = t :: rest) :
    Inv P { st with queue := rest } := by
  refine ⟨inv.out_res, inv.child_res, inv.res_nodup, inv.child_depth, ?_,
    inv.worker_src, inv.claimed_mem, inv.active_depth, inv.child_kw,
    inv.fetched_filtered, inv.out_filtered, inv.fetch_depth, ?_, ?_⟩
  · intro t2 ht2
    exact inv.queue_src t2 (by rw [hq]; exact List.mem_cons_of_mem t ht2)
  · intro q hqne
    have hb := inv.fetch_bound q hqne
    have hqcnt : queueCnt q st
        = List.countP (taskHasQ q) rest + (if taskHasQ q t then 1 else 0) := by
      rw [queueCnt, hq, List.countP_cons]
    simp only [queueCnt, preCnt, fetchCnt, childCnt] at *
    omega
  · have hb := inv.kw_bound
    have hqcnt : queueCnt P.kw st
        = List.countP (taskHasQ P.kw) rest + (if taskHasQ P.kw t then 1 else 0) := by
      rw [queueCnt, hq, List.countP_cons]
    by_cases hm : P.kw ∈ st.processed
    · rw [if_pos hm] at hb ⊢
      exact hb
    · rw [if_neg hm] at hb ⊢
      simp only [queueCnt, preCnt, fetchCnt] at *
      omega

/-- The coordinator pushes one sentinel (lines 167-171, 214-215). -/
theorem inv_push {P : Params} {st : GState}
    (inv : Inv P st) :
    Inv P { st with queue := st.queue ++ [Task.sentinel] } := by
  refine ⟨inv.out_res, inv.child_res, inv.res_nodup, inv.child_depth, ?_,
    inv.worker_src, inv.claimed_mem, inv.active_depth, inv.child_kw,
    inv.fetched_filtered, inv.out_filtered, inv.fetch_depth, ?_, ?_⟩
  · intro t2 ht2
    rcases List.mem_append.mp ht2 with h | h
    · exact inv.queue_src t2 h
    · exact Or.inl (List.mem_singleton.mp h)
  · intro q hqne
    have hb := inv.fetch_bound q hqne
    simp only [queueCnt, preCnt, fetchCnt, childCnt, List.countP_append,
      List.countP_cons, List.countP_nil, taskHasQ_sent, if_false,
      Bool.false_eq_true] at *
    omega
  · have hb := inv.kw_bound
    by_cases hm : P.kw ∈ st.processed
    · rw [if_pos hm] at hb ⊢
      exact hb
    · rw [if_neg hm] at hb ⊢
      simp only [queueCnt, preCnt, fetchCnt, List.countP_append, List.countP_cons,
        List.countP_nil, taskHasQ_sent, if_false, Bool.false_eq_true] at *
      omega

/-- A dequeued task that is dropped by the line-113 or line-120 check:
`task_done` and `continue`, touching nothing else. -/
theorem inv_drop {P : Params} {st : GState} {i : Nat} {q : String} {d : Nat}
    (inv : Inv P st) (hi : st.workers[i]? = some (.gotTask (.item q d))) :
    Inv P { st with workers := st.workers.set i .idle } := by
  refine ⟨inv.out_res, inv.child_res, inv.res_nodup, inv.child_depth, inv.queue_src,
    ?_, ?_, ?_, inv.child_kw, ?_, inv.out_filtered, inv.fetch_depth, ?_, ?_⟩
  · intro w hw q2 d2 hqd
    rcases mem_set_cases hw with rfl | hw
    · exact absurd hqd (by simp [wTask])
    · exact inv.worker_src w hw q2 d2 hqd
  · intro w hw q2 d2 hqd
    rcases mem_set_cases hw with rfl | hw
    · exact absurd hqd (by simp [wClaimed])
    · exact inv.claimed_mem w hw q2 d2 hqd
  · intro w hw q2 d2 hqd
    rcases mem_set_cases hw with rfl | hw
    · exact absurd hqd (by simp [wActive])
    · exact inv.active_depth w hw q2 d2 hqd
  · intro w hw q2 d2 suggs heq
    rcases mem_set_cases hw with rfl | hw
    · simp at heq
    · exact inv.fetched_filtered w hw q2 d2 suggs heq
  · intro q2 hqne
    have hcc := countP_set_count (wPreQ q2) st.workers i .idle (.gotTask (.item q d)) hi
    have hb := inv.fetch_bound q2 hqne
    simp only [queueCnt, preCnt, fetchCnt, childCnt, wPreQ_idle, wPreQ_got_item,
      if_false, Bool.false_eq_true] at *
    omega
  · have hcc := countP_set_count (wPreQ P.kw) st.workers i .idle (.gotTask (.item q d)) hi
    have hcc2 := countP_set_count (wCCQ P.kw) st.workers i .idle (.gotTask (.item q d)) hi
    have hb := inv.kw_bound
    by_cases hm : P.kw ∈ st.processed
    · rw [if_pos hm] at hb ⊢
      simp only [ccCnt, fetchCnt, wCCQ_idle, wCCQ_got, if_false,
        Bool.false_eq_true] at *
      omega
    · rw [if_neg hm] at hb ⊢
      simp only [queueCnt, preCnt, fetchCnt, wPreQ_idle, wPreQ_got_item, if_false,
        Bool.false_eq_true] at *
      omega

/-- A dequeued task that passes both checks: the worker is now committed to
fetching `q` (it will run lines 124-126 next) but has not yet executed the
`processed_queries.add` of line 125. -/
theorem inv_pass {P : Params} {st : GState} {i : Nat} {q : String} {d : Nat}
    (inv : Inv P st) (hi : st.workers[i]? = some (.gotTask (.item q d)))
    (hnp : q ∉ st.processed) (hd : d < P.maxDepth) :
    Inv P { st with workers := st.workers.set i (.checked q d) } := by
  have hwmem : WState.gotTask (.item q d) ∈ st.workers := List.getElem?_mem hi
  have hsrc : (q = P.kw ∧ d = 0) ∨ (q, d) ∈ st.childLog :=
    inv.worker_src _ hwmem q d (by simp [wTask])
  refine ⟨inv.out_res, inv.child_res, inv.res_nodup, inv.child_depth, inv.queue_src,
    ?_, ?_, ?_, inv.child_kw, ?_, inv.out_filtered, inv.fetch_depth, ?_, ?_⟩
  · intro w hw q2 d2 hqd
    rcases mem_set_cases hw with rfl | hw
    · simp only [wTask, Option.some.injEq, Prod.mk.injEq] at hqd
      obtain ⟨rfl, rfl⟩ := hqd
      exact hsrc
    · exact inv.worker_src w hw q2 d2 hqd
  · intro w hw q2 d2 hqd
    rcases mem_set_cases hw with rfl | hw
    · exact absurd hqd (by simp [wClaimed])
    · exact inv.claimed_mem w hw q2 d2 hqd
  · intro w hw q2 d2 hqd
    rcases mem_set_cases hw with rfl | hw
    · simp only [wActive, Option.some.injEq, Prod.mk.injEq] at hqd
      obtain ⟨rfl, rfl⟩ := hqd
      refine ⟨hd, fun hkw => ?_⟩
      rcases hsrc with ⟨_, h0⟩ | hmem
      · exact h0
      · exact absurd (inv.child_kw (List.ne_nil_of_mem hmem)) (hkw ▸ hnp)
    · exact inv.active_depth w hw q2 d2 hqd
  · intro w hw q2 d2 suggs heq
    rcases mem_set_cases hw with rfl | hw
    · simp at heq
    · exact inv.fetched_filtered w hw q2 d2 suggs heq
  · intro q2 hqne
    have hcc := countP_set_count (wPreQ q2) st.workers i (.checked q d)
      (.gotTask (.item q d)) hi
    have hb := inv.fetch_bound q2 hqne
    simp only [queueCnt, preCnt, fetchCnt, childCnt, wPreQ_checked, wPreQ_got_item]
      at *
    omega
  · have hcc := countP_set_count (wPreQ P.kw) st.workers i (.checked q d)
      (.gotTask (.item q d)) hi
    have hcc2 := countP_set_count (wCCQ P.kw) st.workers i (.checked q d)
      (.gotTask (.item q d)) hi
    have hb := inv.kw_bound
    by_cases hm : P.kw ∈ st.processed
    · rw [if_pos hm] at hb ⊢
      have hne : (q == P.kw) = false :=
        beq_eq_false_iff_ne.mpr fun h => hnp (h ▸ hm)
      simp only [ccCnt, fetchCnt, wCCQ_checked, wCCQ_got, hne, if_false,
        Bool.false_eq_true] at *
      omega
    · rw [if_neg hm] at hb ⊢
      simp only [queueCnt, preCnt, fetchCnt, wPreQ_checked, wPreQ_got_item] at *
      omega

/-- Line 125: `self.processed_queries.add(query)`.  The worker had already
decided to fetch (it is past the line-113 check). -/
theorem inv_claim {P : Params} {st : GState} {i : Nat} {q : String} {d : Nat}
    (inv : Inv P st) (hi : st.workers[i]? = some (.checked q d)) :
    Inv P { st with
              processed := if q ∈ st.processed then st.processed
                           else st.processed ++ [q]
              workers := st.workers.set i (.claimed q d) } := by
  have hwmem : WState.checked q d ∈ st.workers := List.getElem?_mem hi
  have hmono : ∀ x, x ∈ st.processed →
      x ∈ (if q ∈ st.processed then st.processed else st.processed ++ [q]) := by
    intro x hx
    split
    · exact hx
    · exact List.mem_append_left _ hx
  refine ⟨inv.out_res, inv.child_res, inv.res_nodup, inv.child_depth, inv.queue_src,
    ?_, ?_, ?_, ?_, ?_, inv.out_filtered, inv.fetch_depth, ?_, ?_⟩
  · intro w hw q2 d2 hqd
    rcases mem_set_cases hw with rfl | hw
    · simp only [wTask, Option.some.injEq, Prod.mk.injEq] at hqd
      obtain ⟨rfl, rfl⟩ := hqd
      exact inv.worker_src _ hwmem q d (by simp [wTask])
    · exact inv.worker_src w hw q2 d2 hqd
  · intro w hw q2 d2 hqd
    rcases mem_set_cases hw with rfl | hw
    · simp only [wClaimed, Option.some.injEq, Prod.mk.injEq] at hqd
      obtain ⟨rfl, rfl⟩ := hqd
      split
      · assumption
      · exact List.mem_append_right _ (List.mem_singleton_self q)
    · exact hmono q2 (inv.claimed_mem w hw q2 d2 hqd)
  · intro w hw q2 d2 hqd
    rcases mem_set_cases hw with rfl | hw
    · simp only [wActive, Option.some.injEq, Prod.mk.injEq] at hqd
      obtain ⟨rfl, rfl⟩ := hqd
      exact inv.active_depth _ hwmem q d (by simp [wActive])
    · exact inv.active_depth w hw q2 d2 hqd
  · intro h
    exact hmono _ (inv.child_kw h)
  · intro w hw q2 d2 suggs heq
    rcases mem_set_cases hw with rfl | hw
    · simp at heq
    · exact inv.fetched_filtered w hw q2 d2 suggs heq
  · intro q2 hqne
    have hcc := countP_set_count (wPreQ q2) st.workers i (.claimed q d)
      (.checked q d) hi
    have hb := inv.fetch_bound q2 hqne
    simp only [queueCnt, preCnt, fetchCnt, childCnt, wPreQ_claimed, wPreQ_checked]
      at *
    omega
  · have hcc := countP_set_count (wPreQ P.kw) st.workers i (.claimed q d)
      (.checked q d) hi
    have hcc2 := countP_set_count (wCCQ P.kw) st.workers i (.claimed q d)
      (.checked q d) hi
    have hb := inv.kw_bound
    have hccle : ccCnt P.kw st ≤ preCnt P.kw st :=
      List.countP_mono_left fun w _ h => by
        simp only [wPreQ, h, Bool.or_true]
    by_cases hm : P.kw ∈ st.processed
    · have hm2 : P.kw ∈ (if q ∈ st.processed then st.processed
          else st.processed ++ [q]) := hmono _ hm
      rw [if_pos hm] at hb
      rw [if_pos hm2]
      simp only [ccCnt, fetchCnt, wCCQ_claimed, wCCQ_checked] at *
      omega
    · rw [if_neg hm] at hb
      by_cases hqkw : q = P.kw
      · have hqm : q ∉ st.processed := fun hq => hm (hqkw ▸ hq)
        have hm2 : P.kw ∈ (if q ∈ st.processed then st.processed
            else st.processed ++ [q]) := by
          rw [if_neg hqm]
          exact List.mem_append_right _ (List.mem_singleton.mpr hqkw.symm)
        rw [if_pos hm2]
        have hbeq : (q == P.kw) = true := beq_iff_eq.mpr hqkw
        simp only [ccCnt, fetchCnt, preCnt, queueCnt, wCCQ_claimed, wCCQ_checked,
          wPreQ_claimed, wPreQ_checked, hbeq] at *
        omega
      · have hm2 : P.kw ∉ (if q ∈ st.processed then st.processed
            else st.processed ++ [q]) := by
          split
          · exact hm
          · intro hmem
            rcases List.mem_append.mp hmem with h | h
            · exact hm h
            · exact hqkw (List.mem_singleton.mp h).symm
        rw [if_neg hm2]
        simp only [queueCnt, preCnt, fetchCnt, wPreQ_claimed, wPreQ_checked] at *
        omega

/-- Line 126: the external lookup.  `wn` is the worker's state after the
call: `fetched` when `get_suggestions` returned, `idle` when it raised and
the generic handler of lines 142-144 ran (`task_done`, back to the loop
head). -/
theorem inv_fetch_aux {P : Params} {st : GState} {i : Nat} {q : String} {d : Nat}
    (wn : WState) (inv : Inv P st)
    (hi : st.workers[i]? = some (.claimed q d))
    (hwt : ∀ q2 d2, wTask wn = some (q2, d2) → q2 = q ∧ d2 = d)
    (hpre : ∀ q2, wPreQ q2 wn = false)
    (hccf : ∀ q2, wCCQ q2 wn = false)
    (hfil : ∀ q2 d2 s2, wn = WState.fetched q2 d2 s2 →
      ∀ s ∈ s2, pyIn P.kw (pyLower s) = true) :
    Inv P { st with fetchLog := st.fetchLog ++ [(q, d)],
                    workers := st.workers.set i wn } := by
  have hwmem : WState.claimed q d ∈ st.workers := List.getElem?_mem hi
  have hqmem : q ∈ st.processed :=
    inv.claimed_mem _ hwmem q d (by simp [wClaimed])
  have hdep := inv.active_depth _ hwmem q d (by simp [wActive])
  have hcl : ∀ q2 d2, wClaimed wn = some (q2, d2) → q2 = q ∧ d2 = d := by
    intro q2 d2 h
    apply hwt q2 d2
    cases wn with
    | idle => exact absurd h (by simp [wClaimed])
    | gotTask t => exact absurd h (by simp [wClaimed])
    | checked q3 d3 => exact absurd h (by simp [wClaimed])
    | claimed q3 d3 => exact h
    | fetched q3 d3 s3 => exact h
    | stopped => exact absurd h (by simp [wClaimed])
  have hac : ∀ q2 d2, wActive wn = some (q2, d2) → q2 = q ∧ d2 = d := by
    intro q2 d2 h
    apply hwt q2 d2
    cases wn with
    | idle => exact absurd h (by simp [wActive])
    | gotTask t => exact absurd h (by simp [wActive])
    | checked q3 d3 => exact h
    | claimed q3 d3 => exact h
    | fetched q3 d3 s3 => exact h
    | stopped => exact absurd h (by simp [wActive])
  refine ⟨inv.out_res, inv.child_res, inv.res_nodup, inv.child_depth, inv.queue_src,
    ?_, ?_, ?_, inv.child_kw, ?_, inv.out_filtered, ?_, ?_, ?_⟩
  · intro w hw q2 d2 hqd
    rcases mem_set_cases hw with rfl | hw
    · obtain ⟨rfl, rfl⟩ := hwt q2 d2 hqd
      exact inv.worker_src _ hwmem q2 d2 (by simp [wTask])
    · exact inv.worker_src w hw q2 d2 hqd
  · intro w hw q2 d2 hqd
    rcases mem_set_cases hw with rfl | hw
    · obtain ⟨rfl, rfl⟩ := hcl q2 d2 hqd
      exact hqmem
    · exact inv.claimed_mem w hw q2 d2 hqd
  · intro w hw q2 d2 hqd
    rcases mem_set_cases hw with rfl | hw
    · obtain ⟨rfl, rfl⟩ := hac q2 d2 hqd
      exact hdep
    · exact inv.active_depth w hw q2 d2 hqd
  · intro w hw q2 d2 suggs2 heq
    rcases mem_set_cases hw with rfl | hw
    · exact hfil q2 d2 suggs2 heq
    · exact inv.fetched_filtered w hw q2 d2 suggs2 heq
  · intro p hp
    rcases List.mem_append.mp hp with h | h
    · exact inv.fetch_depth p h
    · rw [List.mem_singleton.mp h]
      exact hdep.1
  · intro q2 hqne
    have hcnt := countP_set_count (wPreQ q2) st.workers i wn (.claimed q d) hi
    have hb := inv.fetch_bound q2 hqne
    simp only [queueCnt, preCnt, fetchCnt, childCnt, wPreQ_claimed, hpre,
      List.countP_append, List.countP_cons, List.countP_nil, if_false,
      Bool.false_eq_true] at *
    omega
  · have hcnt := countP_set_count (wPreQ P.kw) st.workers i wn (.claimed q d) hi
    have hcnt2 := countP_set_count (wCCQ P.kw) st.workers i wn (.claimed q d) hi
    have hb := inv.kw_bound
    by_cases hm : P.kw ∈ st.processed
    · rw [if_pos hm] at hb ⊢
      simp only [ccCnt, fetchCnt, wCCQ_claimed, hccf, List.countP_append,
        List.countP_cons, List.countP_nil, if_false, Bool.false_eq_true] at *
      omega
    · rw [if_neg hm] at hb ⊢
      simp only [queueCnt, preCnt, fetchCnt, wPreQ_claimed, hpre,
        List.countP_append, List.countP_cons, List.countP_nil, if_false,
        Bool.false_eq_true] at *
      omega

/-- The locked block of lines 129-134, followed by `task_done` and the
return to the loop head. -/
theorem inv_record {P : Params} {st : GState} {i : Nat} {q : String} {d : Nat}
    {suggs : List String} (inv : Inv P st)
    (hi : st.workers[i]? = some (.fetched q d suggs)) :
    Inv P { recordAll d suggs st with
              workers := (recordAll d suggs st).workers.set i .idle } := by
  obtain ⟨news, h1, h2, h3, h4, h5, h6, h7, h8, h9⟩ := recordAll_spec d suggs st
  have hwmem : WState.fetched q d suggs ∈ st.workers := List.getElem?_mem hi
  have hfilt : ∀ s ∈ suggs, pyIn P.kw (pyLower s) = true :=
    inv.fetched_filtered _ hwmem q d suggs rfl
  have hkw : P.kw ∈ st.processed := by
    rcases inv.worker_src _ hwmem q d (by simp [wTask]) with ⟨hq, _⟩ | hmem
    · exact hq ▸ inv.claimed_mem _ hwmem q d (by simp [wClaimed])
    · exact inv.child_kw (List.ne_nil_of_mem hmem)
  have hst : ({ recordAll d suggs st with
      workers := (recordAll d suggs st).workers.set i .idle } : GState)
      = { queue := st.queue ++ news.map (fun p => Task.item p.1 p.2)
          processed := st.processed
          results := st.results ++ news.map Prod.fst
          output := st.output ++ news.map Prod.fst
          childLog := st.childLog ++ news
          fetchLog := st.fetchLog
          workers := st.workers.set i .idle } := by
    simp only [h1, h2, h3, h4, h5, h6, h7]
  rw [hst]
  refine ⟨?_, ?_, ?_, ?_, ?_, ?_, ?_, ?_, ?_, ?_, ?_, ?_, ?_, ?_⟩
  · exact congrArg (· ++ news.map Prod.fst) inv.out_res
  · rw [List.map_append, inv.child_res]
  · refine List.Nodup.append inv.res_nodup h9 ?_
    rw [List.disjoint_left]
    intro a ha hmem
    obtain ⟨p, hp, hps⟩ := List.mem_map.mp hmem
    exact (h8 p hp).2.2 (hps ▸ ha)
  · intro p hp
    rcases List.mem_append.mp hp with h | h
    · exact inv.child_depth p h
    · rw [(h8 p h).1]; omega
  · intro t ht
    rcases List.mem_append.mp ht with h | h
    · rcases inv.queue_src t h with h | h | ⟨q2, d2, heq, hmem⟩
      · exact Or.inl h
      · exact Or.inr (Or.inl h)
      · exact Or.inr (Or.inr ⟨q2, d2, heq, List.mem_append_left _ hmem⟩)
    · obtain ⟨p, hp, hps⟩ := List.mem_map.mp h
      exact Or.inr (Or.inr ⟨p.1, p.2, hps.symm, List.mem_append_right _ hp⟩)
  · intro w hw q2 d2 hqd
    rcases mem_set_cases hw with rfl | hw
    · exact absurd hqd (by simp [wTask])
    · rcases inv.worker_src w hw q2 d2 hqd with h | h
      · exact Or.inl h
      · exact Or.inr (List.mem_append_left _ h)
  · intro w hw q2 d2 hqd
    rcases mem_set_cases hw with rfl | hw
    · exact absurd hqd (by simp [wClaimed])
    · exact inv.claimed_mem w hw q2 d2 hqd
  · intro w hw q2 d2 hqd
    rcases mem_set_cases hw with rfl | hw
    · exact absurd hqd (by simp [wActive])
    · exact inv.active_depth w hw q2 d2 hqd
  · intro _
    exact hkw
  · intro w hw q2 d2 suggs2 heq
    rcases mem_set_cases hw with rfl | hw
    · simp at heq
    · exact inv.fetched_filtered w hw q2 d2 suggs2 heq
  · intro s hs
    rcases List.mem_append.mp hs with h | h
    · exact inv.out_filtered s h
    · obtain ⟨p, hp, hps⟩ := List.mem_map.mp h
      exact hps ▸ hfilt p.1 (h8 p hp).2.1
  · exact inv.fetch_depth
  · intro q2 hqne
    have hcnt := countP_set_count (wPreQ q2) st.workers i .idle
      (.fetched q d suggs) hi
    have hinc : List.countP (taskHasQ q2) (news.map (fun p => Task.item p.1 p.2))
        = List.countP (fun p => p.1 == q2) news := by
      rw [List.countP_map]
      rfl
    have hb := inv.fetch_bound q2 hqne
    simp only [queueCnt, preCnt, fetchCnt, childCnt, wPreQ_idle, wPreQ_fetched,
      List.countP_append, hinc, if_false, Bool.false_eq_true] at *
    omega
  · rw [if_pos hkw]
    have hb := inv.kw_bound
    rw [if_pos hkw] at hb
    have hcnt2 := countP_set_count (wCCQ P.kw) st.workers i .idle
      (.fetched q d suggs) hi
    simp only [ccCnt, fetchCnt, wCCQ_idle, wCCQ_fetched, if_false,
      Bool.false_eq_true] at *
    omega

/-- Every scheduler action preserves the invariant. -/
theorem inv_applyAct {P : Params} {st : GState} (inv : Inv P st) (a : Act) :
    Inv P (applyAct P st a) := by
  cases a with
  | work i =>
      cases hi : st.workers[i]? with
      | none => simpa [applyAct, hi] using inv
      | some w =>
          rw [applyAct_work hi]
          cases w with
          | idle =>
              cases hq : st.queue with
              | nil => rw [workOn_idle_nil hq]; exact inv
              | cons t rest => rw [workOn_idle_cons hq]; exact inv_dequeue inv hq hi
          | gotTask t =>
              cases t with
              | sentinel => rw [workOn_sentinel]; exact inv_sentinel inv hi
              | item q d =>
                  by_cases h1 : q ∈ st.processed
                  · rw [workOn_item_drop (Or.inl h1)]; exact inv_drop inv hi
                  · by_cases h2 : P.maxDepth ≤ d
                    · rw [workOn_item_drop (Or.inr h2)]; exact inv_drop inv hi
                    · rw [workOn_item_pass h1 (Nat.not_le.mp h2)]
                      exact inv_pass inv hi h1 (Nat.not_le.mp h2)
          | checked q d => rw [workOn_checked]; exact inv_claim inv hi
          | claimed q d =>
              cases hg : get_suggestions P.kw (P.env q) with
              | ok suggs =>
                  rw [workOn_claimed_ok hg]
                  refine inv_fetch_aux _ inv hi ?_ (fun _ => rfl) (fun _ => rfl) ?_
                  · intro q2 d2 h
                    simp only [wTask, Option.some.injEq, Prod.mk.injEq] at h
                    exact ⟨h.1.symm, h.2.symm⟩
                  · intro q2 d2 s2 heq
                    injection heq with e1 e2 e3
                    exact e3 ▸ get_suggestions_ok_filtered hg
              | raised e =>
                  rw [workOn_claimed_raised hg]
                  refine inv_fetch_aux _ inv hi ?_ (fun _ => rfl) (fun _ => rfl) ?_
                  · intro q2 d2 h
                    exact absurd h (by simp [wTask])
                  · intro q2 d2 s2 heq
                    simp at heq
          | fetched q d suggs => rw [workOn_fetched]; exact inv_record inv hi
          | stopped => rw [workOn_stopped]; exact inv
  | stopWorker i =>
      cases hi : st.workers[i]? with
      | none => simpa [applyAct, hi] using inv
      | some w =>
          cases w with
          | idle =>
              have heq : applyAct P st (.stopWorker i)
                  = { st with workers := st.workers.set i .stopped } := by
                simp [applyAct, hi]
              rw [heq]
              exact inv_stop inv hi
          | gotTask t => simpa [applyAct, hi] using inv
          | checked q d => simpa [applyAct, hi] using inv
          | claimed q d => simpa [applyAct, hi] using inv
          | fetched q d s => simpa [applyAct, hi] using inv
          | stopped => simpa [applyAct, hi] using inv
  | drain =>
      cases hq : st.queue with
      | nil => simpa [applyAct, hq] using inv
      | cons t rest =>
          have heq : applyAct P st .drain = { st with queue := rest } := by
            simp [applyAct, hq]
          rw [heq]
          exact inv_drain inv hq
  | pushSentinel => exact inv_push inv

theorem inv_foldl {P : Params} {st : GState} (inv : Inv P st) :
    ∀ acts : List Act, Inv P (acts.foldl (applyAct P) st)
  | [] => inv
  | a :: acts => inv_foldl (inv_applyAct inv a) acts

/-- The invariant holds in every reachable state of a run. -/
theorem inv_exec (P : Params) (acts : List Act) : Inv P (exec P acts) :=
  inv_foldl (inv_init P) acts

/-- Each query is fetched at most once in any reachable state. -/
theorem fetchCnt_le_one {P : Params} {st : GState} (inv : Inv P st) (q : String) :
    fetchCnt q st ≤ 1 := by
  by_cases hq : q = P.kw
  · subst hq
    have hb := inv.kw_bound
    by_cases hm : P.kw ∈ st.processed
    · rw [if_pos hm] at hb; omega
    · rw [if_neg hm] at hb; omega
  · have hb := inv.fetch_bound q hq
    have h1 : childCnt q st = List.count q (st.childLog.map Prod.fst) := by
      rw [List.count_eq_countP, List.countP_map]
      rfl
    have h2 : List.count q (st.childLog.map Prod.fst) ≤ 1 := by
      rw [inv.child_res]
      exact List.nodup_iff_count_le_one.mp inv.res_nodup q
    omega

/-- The fetch log never repeats a query. -/
theorem fetch_nodup {P : Params} {st : GState} (inv : Inv P st) :
    (st.fetchLog.map Prod.fst).Nodup := by
  rw [List.nodup_iff_count_le_one]
  intro q
  have h1 : List.count q (st.fetchLog.map Prod.fst) = fetchCnt q st := by
    rw [List.count_eq_countP, List.countP_map]
    rfl
  rw [h1]
  exact fetchCnt_le_one inv q

/-- With `max_depth = 0` a run can do nothing: every dequeued task fails
the depth check, so no worker ever passes line 120, nothing is fetched and
nothing is recorded. -/
def ZeroState (st : GState) : Prop :=
  st.output = [] ∧ st.results = [] ∧ st.childLog = []
    ∧ ∀ w ∈ st.workers, wActive w = none

theorem zero_applyAct {P : Params} {st : GState} (h0 : P.maxDepth = 0)
    (hz : ZeroState st) (a : Act) : ZeroState (applyAct P st a) := by
  obtain ⟨hout, hres, hch, hwk⟩ := hz
  have hset : ∀ (i : Nat) (wn : WState), wActive wn = none →
      ZeroState { st with workers := st.workers.set i wn } := by
    intro i wn hwn
    refine ⟨hout, hres, hch, ?_⟩
    intro w hw
    rcases mem_set_cases hw with rfl | hw
    · exact hwn
    · exact hwk w hw
  cases a with
  | work i =>
      cases hi : st.workers[i]? with
      | none => simpa [applyAct, hi] using ⟨hout, hres, hch, hwk⟩
      | some w =>
          rw [applyAct_work hi]
          cases w with
          | idle =>
              cases hq : st.queue with
              | nil => rw [workOn_idle_nil hq]; exact ⟨hout, hres, hch, hwk⟩
              | cons t rest =>
                  rw [workOn_idle_cons hq]
                  refine ⟨hout, hres, hch, ?_⟩
                  intro w hw
                  rcases mem_set_cases hw with rfl | hw
                  · rfl
                  · exact hwk w hw
          | gotTask t =>
              cases t with
              | sentinel => rw [workOn_sentinel]; exact hset i .stopped rfl
              | item q d =>
                  rw [workOn_item_drop (Or.inr (h0 ▸ Nat.zero_le d))]
                  exact hset i .idle rfl
          | checked q d =>
              have := hwk _ (List.getElem?_mem hi)
              simp [wActive] at this
          | claimed q d =>
              have := hwk _ (List.getElem?_mem hi)
              simp [wActive] at this
          | fetched q d suggs =>
              have := hwk _ (List.getElem?_mem hi)
              simp [wActive] at this
          | stopped => rw [workOn_stopped]; exact ⟨hout, hres, hch, hwk⟩
  | stopWorker i =>
      cases hi : st.workers[i]? with
      | none => simpa [applyAct, hi] using ⟨hout, hres, hch, hwk⟩
      | some w =>
          cases w with
          | idle =>
              have heq : applyAct P st (.stopWorker i)
                  = { st with workers := st.workers.set i .stopped } := by
                simp [applyAct, hi]
              rw [heq]
              exact hset i .stopped rfl
          | gotTask t => simpa [applyAct, hi] using ⟨hout, hres, hch, hwk⟩
          | checked q d => simpa [applyAct, hi] using ⟨hout, hres, hch, hwk⟩
          | claimed q d => simpa [applyAct, hi] using ⟨hout, hres, hch, hwk⟩
          | fetched q d s => simpa [applyAct, hi] using ⟨hout, hres, hch, hwk⟩
          | stopped => simpa [applyAct, hi] using ⟨hout, hres, hch, hwk⟩
  | drain =>
      cases hq : st.queue with
      | nil => simpa [applyAct, hq] using ⟨hout, hres, hch, hwk⟩
      | cons t rest =>
          have heq : applyAct P st .drain = { st with queue := rest } := by
            simp [applyAct, hq]
          rw [heq]
          exact ⟨hout, hres, hch, hwk⟩
  | pushSentinel => exact ⟨hout, hres, hch, hwk⟩

theorem zero_foldl {P : Params} {st : GState} (h0 : P.maxDepth = 0)
    (hz : ZeroState st) :
    ∀ acts : List Act, ZeroState (acts.foldl (applyAct P) st)
  | [] => hz
  | a :: acts => zero_foldl h0 (zero_applyAct h0 hz a) acts

theorem zero_exec {P : Params} (h0 : P.maxDepth = 0) (acts : List Act) :
    ZeroState (exec P acts) := by
  refine zero_foldl h0 ⟨rfl, rfl, rfl, ?_⟩ acts
  intro w hw
  rw [List.eq_of_mem_replicate hw]
  rfl

/-- Every candidate handed to the locked block is in the result set
afterwards (lines 130-134: a new one is added, an old one was already
there). -/
theorem recordAll_mem (depth : Nat) :
    ∀ (suggs : List String) (st : GState) (s : String),
      s ∈ suggs ∨ s ∈ st.results → s ∈ (recordAll depth suggs st).results
  | [], _, s, h => h.resolve_left (by simp)
  | x :: rest, st, s, h => by
      have hstep : recordAll depth (x :: rest) st
          = recordAll depth rest (recordOne depth st x) := rfl
      rw [hstep]
      apply recordAll_mem depth rest
      have hx : ∀ y ∈ st.results, y ∈ (recordOne depth st x).results := by
        intro y hy
        by_cases hmem : x ∈ st.results
        · rw [recordOne_seen hmem]; exact hy
        · simp only [recordOne, if_neg hmem]
          exact List.mem_append_left _ hy
      rcases h with h | h
      · rcases List.mem_cons.mp h with rfl | h
        · right
          by_cases hmem : s ∈ st.results
          · rw [recordOne_seen hmem]; exact hmem
          · simp only [recordOne, if_neg hmem]
            exact List.mem_append_right _ (List.mem_singleton_self s)
        · left; exact h
      · right; exact hx s h

theorem filterMap_id_map_some (l : List String) : (l.map some).filterMap id = l := by
  induction l with
  | nil => rfl
  | cons a t ih => simp [List.filterMap_cons, ih]

/-! ## The console output of `run` (lines 173-234)

`run` itself prints the three header lines (175-177), on `KeyboardInterrupt`
the cleanup notice (line 220), and — after the `finally` — the two summary
lines (233-234), in both the natural-completion and the interruption path.
(The per-task `print` of line 124 belongs to the workers, not to `run`.)
`final` is the crawl state when the threads are done; line 233 prints
`len(self.results)`. -/

inductive RunOutcome where
  | normal
  | interrupted
deriving DecidableEq

/-- Line 233: `已完成! 共收集到 {len(self.results)} 个建议关键词`. -/
def summaryLine (n : Nat) : String :=
  "已完成! 共收集到 " ++ toString n ++ " 个建议关键词"

/-- Line 234: `结果已保存到: {self.output_file}`. -/
def savedLine (outFile : String) : String :=
  "结果已保存到: " ++ outFile

def runOutputs (kw : String) (maxDepth : Nat) (outFile : String)
    (o : RunOutcome) (final : GState) : List String :=
  ["开始收集包含 '" ++ kw ++ "' 的搜索建议...",
   "最大深度: " ++ toString maxDepth,
   "结果将保存到: " ++ outFile]
  ++ (match o with
      | .interrupted => ["收到中断信号,正在清理资源..."]
      | .normal => [])
  ++ [summaryLine final.results.length, savedLine outFile]

/-- A concrete provider for witnesses: the seed query `"rust"` has three
candidates, two of which contain the keyword; everything else has none. -/
def envRust : String → Response := fun q =>
  if q = "rust" then .parsed [some "rust lang", some "go lang", some "rustacean"]
  else .parsed []

/-! ## The claims -/

/-- C1: in every run (any parameters, any interleaving), each distinct
suggestion string is persisted at most once and enqueued as a child task at
most once, however often lookups return it; and a candidate already in the
seen-results set is neither persisted nor re-enqueued (the locked block
leaves the state untouched for it). -/
theorem crawler_dedup_once :
    (∀ (P : Params) (acts : List Act),
        (exec P acts).output.Nodup
          ∧ ((exec P acts).childLog.map Prod.fst).Nodup)
    ∧ ∀ (depth : Nat) (st : GState) (s : String),
        s ∈ st.results → recordOne depth st s = st := by
  constructor
  · intro P acts
    have inv := inv_exec P acts
    constructor
    · rw [inv.out_res]; exact inv.res_nodup
    · rw [inv.child_res]; exact inv.res_nodup
  · intro depth st s h
    exact recordOne_seen h

theorem crawler_dedup_once_witness :
    (exec (mkParams "rust" 5 envRust 1)
        [.work 0, .work 0, .work 0, .work 0, .work 0]).output.Nodup
    ∧ recordOne 0
        { queue := [], processed := [], results := ["rust lang"],
          output := ["rust lang"], childLog := [], fetchLog := [], workers := [] }
        "rust lang"
      = { queue := [], processed := [], results := ["rust lang"],
          output := ["rust lang"], childLog := [], fetchLog := [], workers := [] } :=
  ⟨(crawler_dedup_once.1 (mkParams "rust" 5 envRust 1)
      [.work 0, .work 0, .work 0, .work 0, .work 0]).1,
   crawler_dedup_once.2 0 _ "rust lang" (by decide)⟩

/-- C2: a dequeued `(query, depth)` task with `depth ≥ max_depth` is
acknowledged and discarded by line 120-122 — the step changes nothing but
the worker's control state (no fetch, no persistence, no enqueued child) —
and every lookup the run ever makes is at depth < `max_depth`. -/
theorem depth_limit_blocks_fetch :
    (∀ (P : Params) (st : GState) (i : Nat) (q : String) (d : Nat),
        st.workers[i]? = some (.gotTask (.item q d)) → P.maxDepth ≤ d →
        applyAct P st (.work i) = { st with workers := st.workers.set i .idle })
    ∧ ∀ (P : Params) (acts : List Act), ∀ p ∈ (exec P acts).fetchLog,
        p.2 < P.maxDepth := by
  constructor
  · intro P st i q d hi hd
    rw [applyAct_work hi, workOn_item_drop (Or.inr hd)]
  · intro P acts p hp
    exact (inv_exec P acts).fetch_depth p hp

theorem depth_limit_blocks_fetch_witness :
    applyAct (mkParams "rust" 1 envRust 1)
        { queue := [], processed := [], results := [], output := [], childLog := [],
          fetchLog := [], workers := [.gotTask (.item "rust lang" 1)] } (.work 0)
      = { queue := [], processed := [], results := [], output := [], childLog := [],
          fetchLog := [], workers := [.idle] }
    ∧ (("rust", 0) : String × Nat).2 < (mkParams "rust" 5 envRust 1).maxDepth :=
  ⟨depth_limit_blocks_fetch.1 (mkParams "rust" 1 envRust 1) _ 0 "rust lang" 1 rfl
      (by decide),
   depth_limit_blocks_fetch.2 (mkParams "rust" 5 envRust 1)
      [.work 0, .work 0, .work 0, .work 0] ("rust", 0) (by decide)⟩

/-- C3: every string a run ever persists contains the configured
`main_keyword` as a case-insensitive substring (line 90 filters on
`self.main_keyword in s.lower()`, `self.main_keyword` being the lowered
keyword from line 43); and for keyword `"rust"` the filter keeps exactly
`"rust lang"` and `"rustacean"` out of
`["rust lang", "go lang", "rustacean"]`. -/
theorem persisted_contains_keyword :
    (∀ (K : String) (maxDepth : Nat) (env : String → Response) (n : Nat)
        (acts : List Act) (s : String),
        s ∈ (exec (mkParams K maxDepth env n) acts).output →
        pyIn (pyLower K) (pyLower s) = true)
    ∧ filterSuggestions "rust" ["rust lang", "go lang", "rustacean"]
        = ["rust lang", "rustacean"] := by
  constructor
  · intro K maxDepth env n acts s hs
    exact (inv_exec (mkParams K maxDepth env n) acts).out_filtered s hs
  · decide

theorem persisted_contains_keyword_witness :
    pyIn (pyLower "rust") (pyLower "rust lang") = true :=
  persisted_contains_keyword.1 "rust" 5 envRust 1
    [.work 0, .work 0, .work 0, .work 0, .work 0] "rust lang" (by decide)

/-- C4 (amended): the lookup returns `[]` (after logging) on a transport
error (`requests.RequestException`, lines 92-94) and on an XML parse error
(`ET.ParseError`, lines 95-97); and a parseable response in which every
`<suggestion>` element carries a `data` attribute never raises.  (The claim
as stated fails for a parseable response with a data-less suggestion
element: see the counterexample.) -/
theorem lookup_errors_swallowed (kw : String) :
    get_suggestions kw .transportError = .ok []
    ∧ get_suggestions kw .parseError = .ok []
    ∧ ∀ datas : List (Option String), (∀ x ∈ datas, x.isSome) →
        ∃ l, get_suggestions kw (.parsed datas) = .ok l := by
  refine ⟨rfl, rfl, ?_⟩
  intro datas h
  refine ⟨filterSuggestions kw (datas.filterMap id), ?_⟩
  simp only [get_suggestions]
  rw [if_pos (List.all_eq_true.mpr h)]

theorem lookup_errors_swallowed_witness :
    get_suggestions "rust" .transportError = .ok []
    ∧ ∃ l, get_suggestions "rust" (.parsed [some "rust lang"]) = .ok l :=
  ⟨(lookup_errors_swallowed "rust").1,
   (lookup_errors_swallowed "rust").2.2 [some "rust lang"] (by simp)⟩

/-- C4 counterexample: a well-formed (parseable) response whose single
`<suggestion>` element has no `data` attribute makes line 90 evaluate
`None.lower()`: the lookup raises `AttributeError` out of
`get_suggestions` instead of returning an empty sequence — neither
`except` clause of lines 92-97 catches it. -/
theorem lookup_missing_data_raises :
    get_suggestions "rust" (Response.parsed [Option.none])
      = PyResult.raised "AttributeError" := by
  decide

/-- C5 (amended): with `max_depth = 0` nothing is ever fetched and nothing
is ever persisted: the seed task itself, at depth 0, already fails the
`depth < max_depth` check of line 120 and is discarded.  (The behaviour the
claim describes — seed processed, its depth-1 children discarded — is what
`max_depth = 1` gives.) -/
theorem max_depth_zero_no_persist (P : Params) (acts : List Act)
    (h : P.maxDepth = 0) :
    (exec P acts).output = [] ∧ (exec P acts).results = []
      ∧ (exec P acts).fetchLog = [] := by
  obtain ⟨hout, hres, _, _⟩ := zero_exec h acts
  refine ⟨hout, hres, ?_⟩
  rw [List.eq_nil_iff_forall_not_mem]
  intro p hp
  have hd := (inv_exec P acts).fetch_depth p hp
  omega

theorem max_depth_zero_no_persist_witness :
    (exec (mkParams "rust" 0 envRust 1) [.work 0]).output = []
    ∧ (exec (mkParams "rust" 0 envRust 1) [.work 0]).results = []
    ∧ (exec (mkParams "rust" 0 envRust 1) [.work 0]).fetchLog = [] :=
  max_depth_zero_no_persist (mkParams "rust" 0 envRust 1) [.work 0] rfl

/-- C5 counterexample: at `max_depth = 0` the seed lookup would return
`["rust lang", "rustacean"]`, yet the complete run (seed dequeued, discarded by
the depth check, worker stopped on the empty queue) fetches nothing and
persists nothing — not "exactly the results that the seed lookup itself
returns". -/
theorem max_depth_zero_seed_discarded :
    get_suggestions (pyLower "rust") (envRust "rust")
        = .ok ["rust lang", "rustacean"]
    ∧ (exec (mkParams "rust" 0 envRust 1)
        [.work 0, .work 0, .stopWorker 0]).output = []
    ∧ (exec (mkParams "rust" 0 envRust 1)
        [.work 0, .work 0, .stopWorker 0]).fetchLog = []
    ∧ (exec (mkParams "rust" 0 envRust 1)
        [.work 0, .work 0, .stopWorker 0]).queue = []
    ∧ (exec (mkParams "rust" 0 envRust 1)
        [.work 0, .work 0, .stopWorker 0]).workers = [.stopped] := by
  exact ⟨by decide, by decide, by decide, by decide, by decide⟩

/-- C6 (amended): in every run each query string is fetched at most once —
the fetch log never repeats a query.  This does *not* hold because the
line-113 membership test and the line-125 insert are atomic with the fetch
decision (they are not: see the counterexample); it holds because a second
task carrying an already-fetched query can only come into existence after
that query entered `processed_queries`, so its line-113 check fails. -/
theorem query_fetched_at_most_once (P : Params) (acts : List Act) :
    ((exec P acts).fetchLog.map Prod.fst).Nodup
    ∧ ∀ q, fetchCnt q (exec P acts) ≤ 1 :=
  ⟨fetch_nodup (inv_exec P acts), fun q => fetchCnt_le_one (inv_exec P acts) q⟩

/-- C6 counterexample: the membership test and the insert are not atomic
with the fetch decision.  After two steps (worker 0 dequeues the seed and
passes the line-113/120 checks) the run is in a reachable state where
worker 0 has irrevocably decided to fetch `"rust"` (control state
`checked`) while `"rust"` is still absent from `processed_queries` — under
the claimed atomicity such a state could not exist. -/
theorem claim_check_not_atomic :
    (exec (mkParams "rust" 5 envRust 2) [.work 0, .work 0]).workers
        = [.checked "rust" 0, .idle]
    ∧ "rust" ∉ (exec (mkParams "rust" 5 envRust 2) [.work 0, .work 0]).processed := by
  exact ⟨by decide, by decide⟩

/-- C7: a worker that dequeues a sentinel `(None, 0)` acknowledges it and
stops (lines 113-116): the dequeue step removes only the sentinel from the
queue, and the check step only moves the worker to `stopped` — no fetch, no
persistence, no enqueue in either step. -/
theorem sentinel_stops_worker :
    (∀ (P : Params) (st : GState) (i : Nat) (rest : List Task),
        st.workers[i]? = some .idle → st.queue = Task.sentinel :: rest →
        applyAct P st (.work i)
          = { st with queue := rest,
                      workers := st.workers.set i (.gotTask .sentinel) })
    ∧ ∀ (P : Params) (st : GState) (i : Nat),
        st.workers[i]? = some (.gotTask .sentinel) →
        applyAct P st (.work i)
          = { st with workers := st.workers.set i .stopped } := by
  constructor
  · intro P st i rest hi hq
    rw [applyAct_work hi, workOn_idle_cons hq]
  · intro P st i hi
    rw [applyAct_work hi, workOn_sentinel]

theorem sentinel_stops_worker_witness :
    applyAct (mkParams "rust" 5 envRust 1)
        { queue := [Task.sentinel], processed := [], results := [], output := [],
          childLog := [], fetchLog := [], workers := [.idle] } (.work 0)
      = { queue := [], processed := [], results := [], output := [],
          childLog := [], fetchLog := [], workers := [.gotTask .sentinel] }
    ∧ applyAct (mkParams "rust" 5 envRust 1)
        { queue := [], processed := [], results := [], output := [],
          childLog := [], fetchLog := [], workers := [.gotTask .sentinel] } (.work 0)
      = { queue := [], processed := [], results := [], output := [],
          childLog := [], fetchLog := [], workers := [.stopped] } :=
  ⟨sentinel_stops_worker.1 (mkParams "rust" 5 envRust 1) _ 0 [] rfl rfl,
   sentinel_stops_worker.2 (mkParams "rust" 5 envRust 1) _ 0 rfl⟩

/-- C8: whatever the outcome — natural completion or an interruption caught
as `KeyboardInterrupt` — `run` ends by printing the summary line with the
number of collected results and the output location (lines 233-234 stand
after the `try/except/finally`); and that number counts *distinct* results,
since the result set never holds duplicates. -/
theorem run_ends_with_summary (kw : String) (maxDepth : Nat) (outFile : String)
    (o : RunOutcome) (P : Params) (acts : List Act) :
    (∃ pre, runOutputs kw maxDepth outFile o (exec P acts)
        = pre ++ [summaryLine (exec P acts).results.length, savedLine outFile])
    ∧ (exec P acts).results.Nodup := by
  constructor
  · cases o with
    | normal =>
        exact ⟨["开始收集包含 '" ++ kw ++ "' 的搜索建议...",
                "最大深度: " ++ toString maxDepth,
                "结果将保存到: " ++ outFile], rfl⟩
    | interrupted =>
        exact ⟨["开始收集包含 '" ++ kw ++ "' 的搜索建议...",
                "最大深度: " ++ toString maxDepth,
                "结果将保存到: " ++ outFile,
                "收到中断信号,正在清理资源..."], rfl⟩
  · exact (inv_exec P acts).res_nodup

/-- C9: with an empty `main_keyword` the line-90 filter accepts every
candidate (`"" in s.lower()` is always true), so a successful lookup
returns all its candidates and each of them ends up in the result set; and
`main()` only strips whitespace — an empty input flows through to the
constructor unrejected, giving an empty stored keyword. -/
theorem empty_keyword_accepts_all :
    (∀ s : String, pyIn "" s = true)
    ∧ (∀ l : List String, filterSuggestions "" l = l)
    ∧ (∀ datas : List String,
        get_suggestions "" (.parsed (datas.map some)) = .ok datas)
    ∧ (∀ ts : String, (mainEntry "" ts).main_keyword = "")
    ∧ ∀ (depth : Nat) (st : GState) (suggs : List String) (s : String),
        s ∈ suggs → s ∈ (recordAll depth suggs st).results := by
  have hfilter : ∀ l : List String, filterSuggestions "" l = l := by
    intro l
    exact List.filter_eq_self.mpr fun s _ => pyIn_nil (pyLower s)
  refine ⟨pyIn_nil, hfilter, ?_, ?_, ?_⟩
  · intro datas
    have hall : (datas.map some).all Option.isSome = true := by
      rw [List.all_eq_true]
      intro x hx
      obtain ⟨y, _, rfl⟩ := List.mem_map.mp hx
      rfl
    simp only [get_suggestions]
    rw [if_pos hall, filterMap_id_map_some, hfilter]
  · intro ts
    show pyLower (pyStrip "") = ""
    decide
  · intro depth st suggs s h
    exact recordAll_mem depth suggs st s (Or.inl h)

theorem empty_keyword_accepts_all_witness :
    pyIn "" "go lang" = true
    ∧ "go lang" ∈ (recordAll 0 ["go lang"]
        { queue := [], processed := [], results := [], output := [],
          childLog := [], fetchLog := [], workers := [] }).results :=
  ⟨empty_keyword_accepts_all.1 "go lang",
   empty_keyword_accepts_all.2.2.2.2 0 _ ["go lang"] "go lang" (by decide)⟩

/-- C10: the keyword is lowered once at construction (line 43), and
lowering is idempotent, so the run for `K` and the run for `K.lower()` are
the same crawl: identical parameters, identical execution on every
schedule, the seed task is `K.lower()` at depth 0, and the filter compares
`K.lower()` with the lowered candidate.  Only the output file name
(line 53) keeps the original casing of `K`. -/
theorem crawl_ignores_keyword_case (K outDir ts : String) (nw md : Nat)
    (env : String → Response) (n : Nat) (acts : List Act) :
    mkParams (pyLower K) md env n = mkParams K md env n
    ∧ exec (mkParams (pyLower K) md env n) acts = exec (mkParams K md env n) acts
    ∧ (initState (mkParams K md env n)).queue = [Task.item (pyLower K) 0]
    ∧ (mkWorker K outDir ts nw md).main_keyword = pyLower K
    ∧ (mkWorker (pyLower K) outDir ts nw md).main_keyword
        = (mkWorker K outDir ts nw md).main_keyword
    ∧ (mkWorker (pyLower K) outDir ts nw md).max_depth
        = (mkWorker K outDir ts nw md).max_depth
    ∧ (mkWorker (pyLower K) outDir ts nw md).num_workers
        = (mkWorker K outDir ts nw md).num_workers
    ∧ (mkWorker K outDir ts nw md).output_file
        = outDir ++ "/suggestions_" ++ K ++ "_" ++ ts ++ ".txt"
    ∧ filterSuggestions (pyLower K)
        = fun l => l.filter fun s => pyIn (pyLower K) (pyLower s) := by
  have h1 : mkParams (pyLower K) md env n = mkParams K md env n := by
    unfold mkParams
    rw [pyLower_idem]
  refine ⟨h1, by rw [h1], rfl, rfl, ?_, rfl, rfl, rfl, rfl⟩
  exact pyLower_idem K

end Crawler
